import Mathlib

/-!
Verification of the record deframer (`src/msgs/deframer.rs`).

The deframer accumulates bytes from a byte source into a buffer, detects
record boundaries from the five-byte header, and moves completed records
onto a FIFO queue.  The header/record decoder (`Message::check_header`,
`Message::read`) lives outside the given source, so it is modelled from the
specification and abstracted over the header-field validity checks.
-/

namespace Deframer

/-- One byte record type, two bytes protocol version, two bytes length. -/
def HEADER_SIZE : Nat := 1 + 2 + 2

/-- Maximum on-the-wire size of a record: 2^14 payload bytes, a header, and
a 2KB allowance for ciphertext overheads (`MAX_MESSAGE` in the source). -/
def MAX_MESSAGE : Nat := 16384 + 2048 + HEADER_SIZE

/-- Bound on the unprocessed frames queue (`QUEUE_SIZE` in the source). -/
def QUEUE_SIZE : Nat := 1024

/-- Modelled from the spec: the header decoder range-checks the header's
static fields (record type and protocol version).  Those checks live in
`Message::check_header`, outside the given source, so they are abstracted
as a policy: a predicate on the type byte and one on the two version bytes
(combined big-endian). -/
structure HeaderPolicy where
  validTyp : Nat → Bool
  validVersion : Nat → Bool

/-- Modelled from the spec: a decoded record — type, protocol version, and
the payload bytes of the declared length. -/
structure Message where
  typ : Nat
  version : Nat
  payload : List Nat
deriving DecidableEq, Repr

/-- Modelled from the spec: `Message::check_header` parses the fixed
five-byte header (1 byte type, 2 bytes version, 2 bytes big-endian payload
length) and returns the declared payload length when the static fields are
within the protocol's valid ranges, `none` otherwise. -/
def Message.check_header (P : HeaderPolicy) (buf : List Nat) : Option Nat :=
  match buf with
  | t :: v1 :: v2 :: l1 :: l2 :: _ =>
      if P.validTyp t = true ∧ P.validVersion (v1 * 256 + v2) = true then
        some (l1 * 256 + l2)
      else none
  | _ => none

/-- Modelled from the spec: `Message::read` decodes one record from the
front of the buffer — the header fields must be in range and the whole
declared payload must be present — returning the record and the number of
bytes consumed (header plus payload, i.e. the reader's `used()`). -/
def Message.read (P : HeaderPolicy) (buf : List Nat) : Option (Message × Nat) :=
  match buf with
  | t :: v1 :: v2 :: l1 :: l2 :: rest =>
      if P.validTyp t = true ∧ P.validVersion (v1 * 256 + v2) = true ∧
          l1 * 256 + l2 ≤ rest.length then
        some (⟨t, v1 * 256 + v2, rest.take (l1 * 256 + l2)⟩,
              HEADER_SIZE + (l1 * 256 + l2))
      else none
  | _ => none

/-- The deframer state: completed frames (head of the list = front of the
deque), the desynchronisation latch, and the accumulation buffer. -/
structure MessageDeframer where
  frames : List Message
  desynced : Bool
  buf : List Nat
deriving DecidableEq, Repr

/-- The constructor `MessageDeframer::new`. -/
def MessageDeframer.new : MessageDeframer := ⟨[], false, []⟩

/-- The check `MessageDeframer::buf_contains_message`, on the accumulation buffer:
`some false` when too short for a header, `none` on a damaged header or a
declared length at or past `MAX_MESSAGE - HEADER_SIZE`, otherwise whether
the whole record is buffered. -/
def buf_contains_message (P : HeaderPolicy) (buf : List Nat) : Option Bool :=
  if buf.length < HEADER_SIZE then some false
  else
    match Message.check_header P buf with
    | none => none
    | some len =>
        if MAX_MESSAGE - HEADER_SIZE ≤ len then none
        else some (decide (len + HEADER_SIZE ≤ buf.length))

/-- The extractor `MessageDeframer::deframe_one`: take one record off the front of `buf`
and push it onto the back of `frames`.  The source unwraps the parse; under
the loop's `Some(true)` guard the parse always succeeds (proved below), so
the `none` branch is unreachable there and modelled as the identity. -/
def deframe_one (P : HeaderPolicy) (s : MessageDeframer) : MessageDeframer :=
  match Message.read P s.buf with
  | some (m, used) => ⟨s.frames ++ [m], s.desynced, s.buf.drop used⟩
  | none => s

/-- The decode loop at the end of `MessageDeframer::read`: repeatedly
deframe while the buffer holds a complete record, set the desync latch and
stop on an invalid verdict, stop on an incomplete one.  Structured with
fuel; `read` passes `buf.length + 1`, which is enough because every
iteration consumes at least `HEADER_SIZE` buffered bytes (fuel lemmas
below). -/
def process_frames (P : HeaderPolicy) : Nat → MessageDeframer → MessageDeframer
  | 0, s => s
  | fuel + 1, s =>
      match buf_contains_message P s.buf with
      | none => ⟨s.frames, true, s.buf⟩
      | some true => process_frames P fuel (deframe_one P s)
      | some false => s

/-- Error value returned by the byte source. -/
abbrev IoError : Type := Nat

/-- One invocation of the byte source: either an error, or the bytes it
writes into the slice it is handed (a conforming `io::Read` writes at most
the slice's length, hence the `take` in `read` below). -/
inductive ReadResult where
  | ioErr (e : IoError)
  | ioOk (bytes : List Nat)
deriving DecidableEq, Repr

/-- The ingest operation `MessageDeframer::read`: refuse when the frames queue is over
`QUEUE_SIZE`; otherwise perform the single source read into the spare room
`MAX_MESSAGE - buf.len()`, roll back on error, append the received bytes
and run the decode loop, returning the received byte count. -/
def MessageDeframer.read (P : HeaderPolicy) (s : MessageDeframer) (rd : ReadResult) :
    MessageDeframer × Except IoError Nat :=
  if QUEUE_SIZE < s.frames.length then (s, Except.ok 0)
  else
    match rd with
    | ReadResult.ioErr e => (s, Except.error e)
    | ReadResult.ioOk bytes =>
        let delivered := bytes.take (MAX_MESSAGE - s.buf.length)
        let s1 : MessageDeframer := ⟨s.frames, s.desynced, s.buf ++ delivered⟩
        (process_frames P (s1.buf.length + 1) s1, Except.ok delivered.length)

/-- The query `MessageDeframer::has_pending`. -/
def MessageDeframer.has_pending (s : MessageDeframer) : Bool :=
  !s.frames.isEmpty || !s.buf.isEmpty

/-- Modelled from the spec: `pop_record` removes and returns the oldest
queued record (the callers and tests use `frames.pop_front()`). -/
def pop_record (s : MessageDeframer) : MessageDeframer × Option Message :=
  match s.frames with
  | [] => (s, none)
  | m :: rest => (⟨rest, s.desynced, s.buf⟩, some m)

/-- One caller-visible operation on the deframer: an ingest with an
arbitrary source outcome, or a pop. -/
inductive Step (P : HeaderPolicy) : MessageDeframer → MessageDeframer → Prop
  | read (s : MessageDeframer) (rd : ReadResult) :
      Step P s (MessageDeframer.read P s rd).1
  | pop (s : MessageDeframer) : Step P s (pop_record s).1

/-- States reachable from `new` by any sequence of ingest and pop calls. -/
def Reachable (P : HeaderPolicy) (s : MessageDeframer) : Prop :=
  Relation.ReflTransGen (Step P) MessageDeframer.new s

/-- A concrete header policy for witnesses: handshake (22) and alert (21)
records, TLS versions 0x0301 and 0x0302. -/
def P0 : HeaderPolicy :=
  ⟨fun t => t == 22 || t == 21, fun v => v == 769 || v == 770⟩

/-- A desynchronised deframer whose buffer verdict is "invalid": every
reachable desynchronised state is of this shape, and it is closed under all
operations. -/
def Pinned (P : HeaderPolicy) (s : MessageDeframer) : Prop :=
  s.desynced = true ∧ buf_contains_message P s.buf = none

/-- The master invariant: the buffer is bounded by `MAX_MESSAGE`, the
frames queue never passes `QUEUE_SIZE` by more than the records one full
buffer can hold, and the desync latch implies an invalid verdict pinned at
the buffer's front. -/
def Inv (P : HeaderPolicy) (s : MessageDeframer) : Prop :=
  s.buf.length ≤ MAX_MESSAGE ∧
  s.frames.length ≤ QUEUE_SIZE + MAX_MESSAGE / HEADER_SIZE ∧
  (s.desynced = true → buf_contains_message P s.buf = none)

/-- Feed the bytes of `w` to the deframer one byte per `read` call, with a
source that delivers exactly that byte. -/
def incrFeed (P : HeaderPolicy) (w : List Nat) : MessageDeframer :=
  w.foldl (fun s b => (MessageDeframer.read P s (ReadResult.ioOk [b])).1)
    MessageDeframer.new

/-- A well-formed record byte sequence: a five-byte header whose static
fields are in range, a declared length below the hard cap, and exactly the
declared payload. -/
def wellFormedRecord (P : HeaderPolicy) (w : List Nat) : Prop :=
  ∃ t v1 v2 l1 l2 : Nat, ∃ pl : List Nat,
    w = t :: v1 :: v2 :: l1 :: l2 :: pl ∧
    P.validTyp t = true ∧ P.validVersion (v1 * 256 + v2) = true ∧
    pl.length = l1 * 256 + l2 ∧
    l1 * 256 + l2 < MAX_MESSAGE - HEADER_SIZE

/-- A minimal record: handshake header, version 0x0301, empty payload. -/
def smallRec : List Nat := [22, 3, 1, 0, 0]

/-- The record `smallRec` decodes to. -/
def m0 : Message := ⟨22, 769, []⟩

/-- Exactly `k` back-to-back copies of `smallRec`. -/
def joinRecs : Nat → List Nat
  | 0 => []
  | k + 1 => smallRec ++ joinRecs k

/-- The boundary-detection verdict exactly as the spec words it:
"incomplete" below `H` buffered bytes; "invalid" on a damaged header;
"invalid" when `L ≥ M - H`, decided before waiting for payload bytes;
"complete" once `H + L` bytes are buffered; otherwise "incomplete". -/
def verdict_spec (P : HeaderPolicy) (buf : List Nat) : Option Bool :=
  if buf.length < HEADER_SIZE then some false
  else
    match Message.check_header P buf with
    | none => none
    | some L =>
        if MAX_MESSAGE - HEADER_SIZE ≤ L then none
        else if HEADER_SIZE + L ≤ buf.length then some true
        else some false


theorem check_header_some_len {P : HeaderPolicy} {buf : List Nat} {L : Nat}
    (h : Message.check_header P buf = some L) : HEADER_SIZE ≤ buf.length := by
  match buf with
  | t :: v1 :: v2 :: l1 :: l2 :: rest => simp [HEADER_SIZE]
  | [] => simp [Message.check_header] at h
  | [_] => simp [Message.check_header] at h
  | [_, _] => simp [Message.check_header] at h
  | [_, _, _] => simp [Message.check_header] at h
  | [_, _, _, _] => simp [Message.check_header] at h

theorem bcm_of_check_none {P : HeaderPolicy} {buf : List Nat}
    (h5 : ¬ buf.length < HEADER_SIZE) (hch : Message.check_header P buf = none) :
    buf_contains_message P buf = none := by
  unfold buf_contains_message
  rw [if_neg h5, hch]

theorem bcm_of_check_some {P : HeaderPolicy} {buf : List Nat} {L : Nat}
    (h5 : ¬ buf.length < HEADER_SIZE) (hch : Message.check_header P buf = some L) :
    buf_contains_message P buf =
      if MAX_MESSAGE - HEADER_SIZE ≤ L then none
      else some (decide (L + HEADER_SIZE ≤ buf.length)) := by
  unfold buf_contains_message
  rw [if_neg h5, hch]

theorem check_header_append {P : HeaderPolicy} {buf : List Nat}
    (h : HEADER_SIZE ≤ buf.length) (extra : List Nat) :
    Message.check_header P (buf ++ extra) = Message.check_header P buf := by
  match buf with
  | t :: v1 :: v2 :: l1 :: l2 :: rest => simp [Message.check_header, List.cons_append]
  | [] => simp [HEADER_SIZE] at h
  | [_] => simp [HEADER_SIZE] at h
  | [_, _] => simp [HEADER_SIZE] at h
  | [_, _, _] => simp [HEADER_SIZE] at h
  | [_, _, _, _] => simp [HEADER_SIZE] at h

theorem bcm_none_append {P : HeaderPolicy} {buf : List Nat}
    (h : buf_contains_message P buf = none) (extra : List Nat) :
    buf_contains_message P (buf ++ extra) = none := by
  have h5 : HEADER_SIZE ≤ buf.length := by
    rcases Nat.lt_or_ge buf.length HEADER_SIZE with hlt | hge
    · unfold buf_contains_message at h
      rw [if_pos hlt] at h
      cases h
    · exact hge
  have h5' : ¬ (buf ++ extra).length < HEADER_SIZE := by
    rw [List.length_append]; omega
  rcases hch : Message.check_header P buf with _ | L
  · exact bcm_of_check_none h5' (by rw [check_header_append h5 extra, hch])
  · rw [bcm_of_check_some (Nat.not_lt.mpr h5) hch] at h
    by_cases hcap : MAX_MESSAGE - HEADER_SIZE ≤ L
    · rw [bcm_of_check_some h5' (by rw [check_header_append h5 extra, hch])]
      rw [if_pos hcap]
    · rw [if_neg hcap] at h; cases h

theorem bcm_true_elim {P : HeaderPolicy} {buf : List Nat}
    (h : buf_contains_message P buf = some true) :
    ∃ L, Message.check_header P buf = some L ∧ L < MAX_MESSAGE - HEADER_SIZE ∧
      L + HEADER_SIZE ≤ buf.length := by
  by_cases hlen : buf.length < HEADER_SIZE
  · unfold buf_contains_message at h
    rw [if_pos hlen] at h; cases h
  · rcases hch : Message.check_header P buf with _ | L
    · rw [bcm_of_check_none hlen hch] at h; cases h
    · rw [bcm_of_check_some hlen hch] at h
      by_cases hcap : MAX_MESSAGE - HEADER_SIZE ≤ L
      · rw [if_pos hcap] at h; cases h
      · rw [if_neg hcap] at h
        refine ⟨L, rfl, Nat.lt_of_not_le hcap, ?_⟩
        exact of_decide_eq_true (Option.some.inj h)

theorem read_of_complete {P : HeaderPolicy} {buf : List Nat} {L : Nat}
    (hc : Message.check_header P buf = some L)
    (hfull : L + HEADER_SIZE ≤ buf.length) :
    ∃ m : Message, Message.read P buf = some (m, HEADER_SIZE + L) := by
  match buf with
  | t :: v1 :: v2 :: l1 :: l2 :: rest =>
      simp only [Message.check_header] at hc
      by_cases hv : P.validTyp t = true ∧ P.validVersion (v1 * 256 + v2) = true
      · rw [if_pos hv] at hc
        have hL : l1 * 256 + l2 = L := Option.some.inj hc
        have hrest : l1 * 256 + l2 ≤ rest.length := by
          simp [HEADER_SIZE] at hfull; omega
        refine ⟨⟨t, v1 * 256 + v2, rest.take (l1 * 256 + l2)⟩, ?_⟩
        simp only [Message.read]
        rw [if_pos ⟨hv.1, hv.2, hrest⟩, hL]
      · rw [if_neg hv] at hc; cases hc
  | [] => cases hc
  | [_] => cases hc
  | [_, _] => cases hc
  | [_, _, _] => cases hc
  | [_, _, _, _] => cases hc

theorem deframe_one_complete {P : HeaderPolicy} {s : MessageDeframer}
    (h : buf_contains_message P s.buf = some true) :
    ∃ m L, Message.check_header P s.buf = some L ∧
      Message.read P s.buf = some (m, HEADER_SIZE + L) ∧
      deframe_one P s = ⟨s.frames ++ [m], s.desynced, s.buf.drop (HEADER_SIZE + L)⟩ ∧
      HEADER_SIZE + L ≤ s.buf.length := by
  obtain ⟨L, hch, hcap, hfull⟩ := bcm_true_elim h
  obtain ⟨m, hr⟩ := read_of_complete hch hfull
  refine ⟨m, L, hch, hr, ?_, by omega⟩
  unfold deframe_one
  rw [hr]

/-! ### Decode-loop lemmas -/

theorem deframe_one_desynced (P : HeaderPolicy) (s : MessageDeframer) :
    (deframe_one P s).desynced = s.desynced := by
  unfold deframe_one
  rcases Message.read P s.buf with _ | ⟨m, used⟩ <;> rfl

theorem process_frames_none {P : HeaderPolicy} {s : MessageDeframer}
    (h : buf_contains_message P s.buf = none) (fuel : Nat) :
    process_frames P (fuel + 1) s = ⟨s.frames, true, s.buf⟩ := by
  simp only [process_frames, h]

theorem process_frames_false {P : HeaderPolicy} {s : MessageDeframer}
    (h : buf_contains_message P s.buf = some false) (fuel : Nat) :
    process_frames P (fuel + 1) s = s := by
  simp only [process_frames, h]

theorem process_frames_true {P : HeaderPolicy} {s : MessageDeframer}
    (h : buf_contains_message P s.buf = some true) (fuel : Nat) :
    process_frames P (fuel + 1) s = process_frames P fuel (deframe_one P s) := by
  simp only [process_frames, h]

theorem process_frames_buf_le (P : HeaderPolicy) (fuel : Nat) :
    ∀ s : MessageDeframer, (process_frames P fuel s).buf.length ≤ s.buf.length := by
  induction fuel with
  | zero => intro s; exact Nat.le_refl _
  | succ f ih =>
      intro s
      rcases hv : buf_contains_message P s.buf with _ | b
      · rw [process_frames_none hv]
      · cases b
        · rw [process_frames_false hv]
        · rw [process_frames_true hv]
          refine Nat.le_trans (ih _) ?_
          obtain ⟨m, L, _, _, hd, hle⟩ := deframe_one_complete hv
          rw [hd]
          simp only [List.length_drop]
          omega

theorem process_frames_frames_le (P : HeaderPolicy) (fuel : Nat) :
    ∀ s : MessageDeframer,
      (process_frames P fuel s).frames.length ≤
        s.frames.length + s.buf.length / HEADER_SIZE := by
  induction fuel with
  | zero => intro s; exact Nat.le_add_right _ _
  | succ f ih =>
      intro s
      rcases hv : buf_contains_message P s.buf with _ | b
      · rw [process_frames_none hv]; exact Nat.le_add_right _ _
      · cases b
        · rw [process_frames_false hv]; exact Nat.le_add_right _ _
        · rw [process_frames_true hv]
          refine Nat.le_trans (ih _) ?_
          obtain ⟨m, L, _, _, hd, hle⟩ := deframe_one_complete hv
          rw [hd]
          simp only [List.length_append, List.length_drop, List.length_cons,
            List.length_nil, HEADER_SIZE] at *
          omega

theorem process_frames_desynced_mono (P : HeaderPolicy) (fuel : Nat) :
    ∀ s : MessageDeframer, s.desynced = true →
      (process_frames P fuel s).desynced = true := by
  induction fuel with
  | zero => intro s h; exact h
  | succ f ih =>
      intro s h
      rcases hv : buf_contains_message P s.buf with _ | b
      · rw [process_frames_none hv]
      · cases b
        · rw [process_frames_false hv]; exact h
        · rw [process_frames_true hv]
          exact ih _ (by rw [deframe_one_desynced]; exact h)

theorem process_frames_desynced_verdict (P : HeaderPolicy) (fuel : Nat) :
    ∀ s : MessageDeframer,
      (s.desynced = true → buf_contains_message P s.buf = none) →
      ((process_frames P fuel s).desynced = true →
        buf_contains_message P (process_frames P fuel s).buf = none) := by
  induction fuel with
  | zero => intro s h; exact h
  | succ f ih =>
      intro s h
      rcases hv : buf_contains_message P s.buf with _ | b
      · rw [process_frames_none hv]; intro _; exact hv
      · cases b
        · rw [process_frames_false hv]; exact h
        · rw [process_frames_true hv]
          refine ih _ ?_
          rw [deframe_one_desynced]
          intro hd
          rw [h hd] at hv
          cases hv

/-! ### Operation-shape lemmas -/

theorem pop_record_nil {s : MessageDeframer} (h : s.frames = []) :
    (pop_record s).1 = s := by
  unfold pop_record
  rw [h]

theorem pop_record_cons {s : MessageDeframer} {m : Message} {rest : List Message}
    (h : s.frames = m :: rest) :
    (pop_record s).1 = ⟨rest, s.desynced, s.buf⟩ := by
  unfold pop_record
  rw [h]

theorem read_over_queue {P : HeaderPolicy} {s : MessageDeframer} (rd : ReadResult)
    (h : QUEUE_SIZE < s.frames.length) :
    MessageDeframer.read P s rd = (s, Except.ok 0) := by
  unfold MessageDeframer.read
  rw [if_pos h]

theorem read_err {P : HeaderPolicy} {s : MessageDeframer} {e : IoError}
    (h : ¬ QUEUE_SIZE < s.frames.length) :
    MessageDeframer.read P s (ReadResult.ioErr e) = (s, Except.error e) := by
  unfold MessageDeframer.read
  rw [if_neg h]

theorem read_ok {P : HeaderPolicy} {s : MessageDeframer} {bytes : List Nat}
    (h : ¬ QUEUE_SIZE < s.frames.length) :
    MessageDeframer.read P s (ReadResult.ioOk bytes) =
      (process_frames P
          ((s.buf ++ bytes.take (MAX_MESSAGE - s.buf.length)).length + 1)
          ⟨s.frames, s.desynced, s.buf ++ bytes.take (MAX_MESSAGE - s.buf.length)⟩,
        Except.ok (bytes.take (MAX_MESSAGE - s.buf.length)).length) := by
  unfold MessageDeframer.read
  rw [if_neg h]

/-! ### The desynchronised latch pins the buffer -/

theorem step_pinned {P : HeaderPolicy} {s s' : MessageDeframer}
    (hp : Pinned P s) (hs : Step P s s') :
    Pinned P s' ∧ s'.frames <:+ s.frames := by
  obtain ⟨hd, hv⟩ := hp
  cases hs with
  | pop =>
      obtain ⟨fr, des, b⟩ := s
      cases fr with
      | nil => exact ⟨⟨hd, hv⟩, List.suffix_refl _⟩
      | cons m rest => exact ⟨⟨hd, hv⟩, List.suffix_cons m rest⟩
  | read rd =>
      by_cases hq : QUEUE_SIZE < s.frames.length
      · rw [read_over_queue rd hq]
        exact ⟨⟨hd, hv⟩, List.suffix_refl _⟩
      · cases rd with
        | ioErr e =>
            rw [read_err hq]
            exact ⟨⟨hd, hv⟩, List.suffix_refl _⟩
        | ioOk bytes =>
            rw [read_ok hq]
            have hb : buf_contains_message P
                (s.buf ++ bytes.take (MAX_MESSAGE - s.buf.length)) = none :=
              bcm_none_append hv _
            rw [process_frames_none hb]
            exact ⟨⟨rfl, hb⟩, List.suffix_refl _⟩

theorem steps_pinned {P : HeaderPolicy} {s s' : MessageDeframer}
    (hp : Pinned P s) (h : Relation.ReflTransGen (Step P) s s') :
    Pinned P s' ∧ s'.frames <:+ s.frames := by
  induction h with
  | refl => exact ⟨hp, List.suffix_refl _⟩
  | tail hab hbc ih =>
      obtain ⟨hpb, hsb⟩ := ih
      obtain ⟨hpc, hsc⟩ := step_pinned hpb hbc
      exact ⟨hpc, hsc.trans hsb⟩

/-! ### The reachable-state invariant -/

theorem inv_new (P : HeaderPolicy) : Inv P MessageDeframer.new := by
  refine ⟨by simp [MessageDeframer.new], by simp [MessageDeframer.new], ?_⟩
  intro h
  simp [MessageDeframer.new] at h

theorem inv_step {P : HeaderPolicy} {s s' : MessageDeframer}
    (h : Inv P s) (hs : Step P s s') : Inv P s' := by
  obtain ⟨hbuf, hfr, hdes⟩ := h
  cases hs with
  | pop =>
      obtain ⟨fr, des, b⟩ := s
      cases fr with
      | nil => exact ⟨hbuf, hfr, hdes⟩
      | cons m rest =>
          refine ⟨hbuf, ?_, hdes⟩
          simp only [List.length_cons] at hfr
          exact Nat.le_trans (Nat.le_succ _) hfr
  | read rd =>
      by_cases hq : QUEUE_SIZE < s.frames.length
      · rw [read_over_queue rd hq]; exact ⟨hbuf, hfr, hdes⟩
      · cases rd with
        | ioErr e => rw [read_err hq]; exact ⟨hbuf, hfr, hdes⟩
        | ioOk bytes =>
            rw [read_ok hq]
            have hdlen : (bytes.take (MAX_MESSAGE - s.buf.length)).length ≤
                MAX_MESSAGE - s.buf.length := by
              simp [List.length_take]
            have hblen : (s.buf ++ bytes.take (MAX_MESSAGE - s.buf.length)).length ≤
                MAX_MESSAGE := by
              rw [List.length_append]; omega
            refine ⟨Nat.le_trans (process_frames_buf_le P _ _) hblen, ?_, ?_⟩
            · refine Nat.le_trans (process_frames_frames_le P _ _) ?_
              exact Nat.add_le_add (Nat.le_of_not_lt hq) (Nat.div_le_div_right hblen)
            · exact process_frames_desynced_verdict P _ _
                (fun hdd => bcm_none_append (hdes hdd) _)

theorem reachable_inv {P : HeaderPolicy} {s : MessageDeframer}
    (h : Reachable P s) : Inv P s := by
  have h' : Relation.ReflTransGen (Step P) MessageDeframer.new s := h
  induction h' with
  | refl => exact inv_new P
  | tail hab hbc ih => exact inv_step (ih hab) hbc

/-- The fuel passed by `read` is irrelevant as long as it is larger than
the buffer: the loop reaches its fixpoint first, so the fueled loop is a
faithful rendering of the source's unbounded loop. -/
theorem process_frames_fuel_irrel (P : HeaderPolicy) :
    ∀ f1 f2 : Nat, ∀ s : MessageDeframer,
      s.buf.length < f1 → s.buf.length < f2 →
      process_frames P f1 s = process_frames P f2 s := by
  intro f1
  induction f1 with
  | zero => intro f2 s h1 h2; omega
  | succ f ih =>
      intro f2 s h1 h2
      cases f2 with
      | zero => omega
      | succ g =>
          rcases hv : buf_contains_message P s.buf with _ | b
          · rw [process_frames_none hv, process_frames_none hv]
          · cases b
            · rw [process_frames_false hv, process_frames_false hv]
            · rw [process_frames_true hv, process_frames_true hv]
              obtain ⟨m, L, _, _, hd, hle⟩ := deframe_one_complete hv
              have hlen : (deframe_one P s).buf.length < f ∧
                  (deframe_one P s).buf.length < g := by
                rw [hd]
                simp only [List.length_drop, HEADER_SIZE] at *
                omega
              exact ih g _ hlen.1 hlen.2

/-! ### Incremental feeding -/

theorem wellFormedRecord_length {P : HeaderPolicy} {w : List Nat}
    (h : wellFormedRecord P w) : w.length < MAX_MESSAGE := by
  obtain ⟨t, v1, v2, l1, l2, pl, hw, _, _, hlen, hcap⟩ := h
  subst hw
  simp only [List.length_cons, MAX_MESSAGE, HEADER_SIZE] at *
  omega

theorem check_header_take {P : HeaderPolicy} {w : List Nat} {k : Nat}
    (hk : HEADER_SIZE ≤ k) :
    Message.check_header P (w.take k) = Message.check_header P w := by
  obtain ⟨n, rfl⟩ : ∃ n, k = n + HEADER_SIZE := ⟨k - HEADER_SIZE, by omega⟩
  match w with
  | t :: v1 :: v2 :: l1 :: l2 :: rest =>
      show Message.check_header P (List.take (n + 5) _) = _
      simp only [List.take_succ_cons, Message.check_header]
  | [] => simp [Message.check_header]
  | [_] => simp [HEADER_SIZE, List.take_succ_cons, Message.check_header]
  | [_, _] => simp [HEADER_SIZE, List.take_succ_cons, Message.check_header]
  | [_, _, _] => simp [HEADER_SIZE, List.take_succ_cons, Message.check_header]
  | [_, _, _, _] => simp [HEADER_SIZE, List.take_succ_cons, Message.check_header]

/-- Any strict prefix of a well-formed record gets the verdict
"incomplete". -/
theorem bcm_take_incomplete {P : HeaderPolicy} {w : List Nat} {k : Nat}
    (hwf : wellFormedRecord P w) (hk : k < w.length) :
    buf_contains_message P (w.take k) = some false := by
  obtain ⟨t, v1, v2, l1, l2, pl, hw, hvt, hvv, hlen, hcap⟩ := hwf
  have hcw : Message.check_header P w = some (l1 * 256 + l2) := by
    subst hw
    simp only [Message.check_header]
    rw [if_pos ⟨hvt, hvv⟩]
  by_cases h5 : k < HEADER_SIZE
  · unfold buf_contains_message
    rw [if_pos]
    rw [List.length_take]
    have : w.length = HEADER_SIZE + pl.length := by
      subst hw; simp [HEADER_SIZE]; omega
    omega
  · have hch : Message.check_header P (w.take k) = some (l1 * 256 + l2) := by
      rw [check_header_take (Nat.le_of_not_lt h5), hcw]
    have hlenw : w.length = HEADER_SIZE + (l1 * 256 + l2) := by
      subst hw; simp [HEADER_SIZE]; omega
    have htk : (w.take k).length = k := by
      rw [List.length_take]; omega
    rw [bcm_of_check_some (by omega) hch]
    rw [if_neg (Nat.not_le.mpr hcap)]
    rw [htk]
    rw [decide_eq_false (show ¬ (l1 * 256 + l2) + HEADER_SIZE ≤ k by omega)]

theorem bcm_short {P : HeaderPolicy} {buf : List Nat}
    (h : buf.length < HEADER_SIZE) : buf_contains_message P buf = some false := by
  unfold buf_contains_message
  rw [if_pos h]

theorem bcm_wellFormed {P : HeaderPolicy} {w : List Nat}
    (hwf : wellFormedRecord P w) : buf_contains_message P w = some true := by
  obtain ⟨t, v1, v2, l1, l2, pl, hw, hvt, hvv, hlen, hcap⟩ := hwf
  have hcw : Message.check_header P w = some (l1 * 256 + l2) := by
    subst hw
    simp only [Message.check_header]
    rw [if_pos ⟨hvt, hvv⟩]
  have hlenw : w.length = HEADER_SIZE + (l1 * 256 + l2) := by
    subst hw; simp [HEADER_SIZE]; omega
  rw [bcm_of_check_some (by omega) hcw, if_neg (Nat.not_le.mpr hcap),
    decide_eq_true (show (l1 * 256 + l2) + HEADER_SIZE ≤ w.length by omega)]

theorem deframe_one_eq {P : HeaderPolicy} {s : MessageDeframer} {m : Message}
    {u : Nat} (hr : Message.read P s.buf = some (m, u)) :
    deframe_one P s = ⟨s.frames ++ [m], s.desynced, s.buf.drop u⟩ := by
  unfold deframe_one
  rw [hr]

/-- Running the decode loop on a buffer holding exactly one well-formed
record extracts that record and empties the buffer. -/
theorem process_frames_record {P : HeaderPolicy} {w : List Nat}
    (hwf : wellFormedRecord P w) (fr : List Message) (d : Bool) (fuel : Nat) :
    ∃ m, Message.read P w = some (m, w.length) ∧
      process_frames P (fuel + 2) ⟨fr, d, w⟩ = ⟨fr ++ [m], d, []⟩ := by
  have hbcm : buf_contains_message P w = some true := bcm_wellFormed hwf
  obtain ⟨L, hch, hcap, hfull⟩ := bcm_true_elim hbcm
  have hlenw : w.length = HEADER_SIZE + L := by
    obtain ⟨t, v1, v2, l1, l2, pl, hw, hvt, hvv, hlen, _⟩ := hwf
    have : Message.check_header P w = some (l1 * 256 + l2) := by
      subst hw
      simp only [Message.check_header]
      rw [if_pos ⟨hvt, hvv⟩]
    rw [this] at hch
    have hL : l1 * 256 + l2 = L := Option.some.inj hch
    subst hw
    simp [HEADER_SIZE]
    omega
  obtain ⟨m, hr⟩ := read_of_complete hch (by omega)
  refine ⟨m, by rw [hr, hlenw], ?_⟩
  rw [process_frames_true (s := ⟨fr, d, w⟩) hbcm]
  have hdf : deframe_one P ⟨fr, d, w⟩ = ⟨fr ++ [m], d, []⟩ := by
    rw [deframe_one_eq (s := ⟨fr, d, w⟩) hr]
    have : w.drop (HEADER_SIZE + L) = [] := by
      rw [← hlenw, List.drop_length]
    rw [this]
  rw [hdf]
  exact process_frames_false
    (s := ⟨fr ++ [m], d, []⟩) (bcm_short (by simp [HEADER_SIZE])) fuel

/-- Unfolding `read` on components, with the byte count small enough that nothing is
clipped by the room left in the buffer. -/
theorem read_ok_components {P : HeaderPolicy} {fr : List Message} {d : Bool}
    {b bytes : List Nat} (hq : fr.length ≤ QUEUE_SIZE)
    (hlen : bytes.length ≤ MAX_MESSAGE - b.length) :
    MessageDeframer.read P ⟨fr, d, b⟩ (ReadResult.ioOk bytes) =
      (process_frames P ((b ++ bytes).length + 1) ⟨fr, d, b ++ bytes⟩,
        Except.ok bytes.length) := by
  rw [read_ok (Nat.not_lt.mpr hq)]
  rw [List.take_of_length_le hlen]

/-- Feeding one byte into a non-full buffer appends it and runs the loop. -/
theorem read_one_byte {P : HeaderPolicy} {fr : List Message} {d : Bool}
    {b : List Nat} (hq : fr.length ≤ QUEUE_SIZE) (hlen : b.length < MAX_MESSAGE)
    (a : Nat) :
    (MessageDeframer.read P ⟨fr, d, b⟩ (ReadResult.ioOk [a])).1 =
      process_frames P ((b ++ [a]).length + 1) ⟨fr, d, b ++ [a]⟩ := by
  rw [read_ok_components hq
    (by simp only [List.length_cons, List.length_nil]; omega)]

theorem incrFeed_nil (P : HeaderPolicy) : incrFeed P [] = MessageDeframer.new := rfl

theorem incrFeed_append_byte (P : HeaderPolicy) (u : List Nat) (a : Nat) :
    incrFeed P (u ++ [a]) =
      (MessageDeframer.read P (incrFeed P u) (ReadResult.ioOk [a])).1 := by
  unfold incrFeed
  rw [List.foldl_append]
  rfl

/-- Feeding a strict prefix of a well-formed record byte-by-byte just
accumulates the bytes: no record, no desync. -/
theorem incrFeed_accum {P : HeaderPolicy} {w : List Nat}
    (hwf : wellFormedRecord P w) :
    ∀ k, k < w.length → incrFeed P (w.take k) = ⟨[], false, w.take k⟩ := by
  have hwlen : w.length < MAX_MESSAGE := wellFormedRecord_length hwf
  intro k
  induction k with
  | zero => intro _; rfl
  | succ k ih =>
      intro hk
      have hk' : k < w.length := by omega
      obtain ⟨a, ha⟩ : ∃ a, w[k]? = some a :=
        ⟨w[k], List.getElem?_eq_getElem hk'⟩
      have htake : w.take (k + 1) = w.take k ++ [a] := by
        rw [List.take_succ, ha]
        rfl
      have htk : (w.take k).length = k := by
        rw [List.length_take]
        omega
      rw [htake, incrFeed_append_byte, ih hk']
      rw [read_one_byte (by simp [QUEUE_SIZE]) (by omega) a]
      rw [← htake]
      exact process_frames_false
        (s := ⟨[], false, w.take (k + 1)⟩) (bcm_take_incomplete hwf hk) _

/-- Feeding a whole well-formed record byte-by-byte yields exactly the one
record, with an empty buffer and no desync. -/
theorem incrFeed_record {P : HeaderPolicy} {w : List Nat}
    (hwf : wellFormedRecord P w) :
    ∃ m, Message.read P w = some (m, w.length) ∧
      incrFeed P w = ⟨[m], false, []⟩ := by
  have hwlen : w.length < MAX_MESSAGE := wellFormedRecord_length hwf
  have h5 : 5 ≤ w.length := by
    obtain ⟨t, v1, v2, l1, l2, pl, hw, _⟩ := hwf
    subst hw
    simp
  obtain ⟨n, hn⟩ : ∃ n, w.length = n + 1 := ⟨w.length - 1, by omega⟩
  have hn' : n < w.length := by omega
  obtain ⟨a, ha⟩ : ∃ a, w[n]? = some a :=
    ⟨w[n], List.getElem?_eq_getElem hn'⟩
  have htake : w.take (n + 1) = w.take n ++ [a] := by
    rw [List.take_succ, ha]
    rfl
  have hw_eq : w = w.take n ++ [a] := by
    conv_lhs => rw [← List.take_length w, hn, htake]
  have htk : (w.take n).length = n := by
    rw [List.length_take]
    omega
  obtain ⟨m, hr, hpf⟩ := process_frames_record hwf [] false n
  refine ⟨m, hr, ?_⟩
  conv_lhs => rw [hw_eq]
  rw [incrFeed_append_byte, incrFeed_accum hwf n hn']
  rw [read_one_byte (by simp [QUEUE_SIZE]) (by omega) a]
  rw [← hw_eq]
  have hfe : w.length + 1 = n + 2 := by omega
  rw [hfe]
  exact hpf

/-- Feeding a whole well-formed record in one call yields exactly the one
record, an empty buffer, no desync, and reports the full byte count. -/
theorem read_bulk_record {P : HeaderPolicy} {w : List Nat}
    (hwf : wellFormedRecord P w) :
    ∃ m, Message.read P w = some (m, w.length) ∧
      MessageDeframer.read P MessageDeframer.new (ReadResult.ioOk w) =
        (⟨[m], false, []⟩, Except.ok w.length) := by
  have hwlen : w.length < MAX_MESSAGE := wellFormedRecord_length hwf
  have h5 : 5 ≤ w.length := by
    obtain ⟨t, v1, v2, l1, l2, pl, hw, _⟩ := hwf
    subst hw
    simp
  obtain ⟨m, hr, hpf⟩ := process_frames_record hwf [] false (w.length - 1)
  refine ⟨m, hr, ?_⟩
  show MessageDeframer.read P ⟨[], false, []⟩ (ReadResult.ioOk w) = _
  rw [read_ok_components (by simp)
    (by simpa using Nat.le_of_lt hwlen)]
  simp only [List.nil_append]
  have hfe : w.length + 1 = (w.length - 1) + 2 := by omega
  rw [hfe, hpf]
  simp

/-! ### Packed minimal records (for the queue-bound analysis) -/

theorem joinRecs_length (k : Nat) : (joinRecs k).length = 5 * k := by
  induction k with
  | zero => rfl
  | succ k ih =>
      simp only [joinRecs, smallRec, List.length_append, List.length_cons,
        List.length_nil, ih]
      omega

/-- The decode loop turns `k` packed minimal records into `k` queued
frames, provided the fuel covers them. -/
theorem process_joinRecs (d : Bool) :
    ∀ k fr fuel, 5 * k < fuel →
      process_frames P0 fuel ⟨fr, d, joinRecs k⟩ =
        ⟨fr ++ List.replicate k m0, d, []⟩ := by
  intro k
  induction k with
  | zero =>
      intro fr fuel hf
      obtain ⟨g, rfl⟩ : ∃ g, fuel = g + 1 := ⟨fuel - 1, by omega⟩
      rw [process_frames_false (s := ⟨fr, d, joinRecs 0⟩)
        (bcm_short (by simp [joinRecs, HEADER_SIZE])) g]
      simp [joinRecs]
  | succ k ih =>
      intro fr fuel hf
      obtain ⟨g, rfl⟩ : ∃ g, fuel = g + 1 := ⟨fuel - 1, by omega⟩
      have hlen : (joinRecs (k + 1)).length = 5 * (k + 1) := joinRecs_length _
      have hch : Message.check_header P0 (joinRecs (k + 1)) = some 0 := by
        show Message.check_header P0 (22 :: 3 :: 1 :: 0 :: 0 :: joinRecs k) = some 0
        simp [Message.check_header, P0]
      have h5 : ¬ (joinRecs (k + 1)).length < HEADER_SIZE := by
        rw [hlen]
        simp [HEADER_SIZE]
      have hbcm : buf_contains_message P0 (joinRecs (k + 1)) = some true := by
        rw [bcm_of_check_some h5 hch, if_neg (by decide),
          decide_eq_true (by rw [hlen]; simp [HEADER_SIZE])]
      rw [process_frames_true (s := ⟨fr, d, joinRecs (k + 1)⟩) hbcm]
      have hread : Message.read P0 (joinRecs (k + 1)) = some (m0, 5) := by
        show Message.read P0 (22 :: 3 :: 1 :: 0 :: 0 :: joinRecs k) = some (m0, 5)
        simp [Message.read, P0, m0, HEADER_SIZE]
      have hdf : deframe_one P0 ⟨fr, d, joinRecs (k + 1)⟩ =
          ⟨fr ++ [m0], d, joinRecs k⟩ := by
        rw [deframe_one_eq (s := ⟨fr, d, joinRecs (k + 1)⟩) hread]
        rfl
      rw [hdf, ih (fr ++ [m0]) g (by omega)]
      simp [List.replicate_succ]

/-! ### The claims -/

/-- C1: for every sequence of ingest (and pop) calls on a deframer, the
accumulation buffer's length never exceeds the maximum permitted record
size `MAX_MESSAGE = 16384 + 2048 + 5`: every read request is sized so the
buffer can grow at most to `MAX_MESSAGE`, and every operation preserves
`buf.len() ≤ MAX_MESSAGE`. -/
theorem c1_buffer_bounded (P : HeaderPolicy) (s : MessageDeframer)
    (h : Reachable P s) : s.buf.length ≤ MAX_MESSAGE :=
  (reachable_inv h).1

theorem c1_buffer_bounded_witness :
    Reachable P0 ⟨[], false, [1, 2, 3]⟩ ∧
      (⟨[], false, [1, 2, 3]⟩ : MessageDeframer).buf.length ≤ MAX_MESSAGE := by
  have hre : Reachable P0 ⟨[], false, [1, 2, 3]⟩ :=
    Relation.ReflTransGen.single
      (Step.read MessageDeframer.new (ReadResult.ioOk [1, 2, 3]))
  exact ⟨hre, c1_buffer_bounded P0 _ hre⟩

theorem verdict_spec_of_check_none {P : HeaderPolicy} {buf : List Nat}
    (h5 : ¬ buf.length < HEADER_SIZE) (hch : Message.check_header P buf = none) :
    verdict_spec P buf = none := by
  unfold verdict_spec
  rw [if_neg h5, hch]

theorem verdict_spec_of_check_some {P : HeaderPolicy} {buf : List Nat} {L : Nat}
    (h5 : ¬ buf.length < HEADER_SIZE) (hch : Message.check_header P buf = some L) :
    verdict_spec P buf =
      if MAX_MESSAGE - HEADER_SIZE ≤ L then none
      else if HEADER_SIZE + L ≤ buf.length then some true
      else some false := by
  unfold verdict_spec
  rw [if_neg h5, hch]

/-- C2: the boundary-detection function computes the spec's three-way
verdict from the buffer alone, using only the header: `some false` when
fewer than `HEADER_SIZE = 5` bytes are buffered; `none` when the header's
static fields are invalid; `none` when the declared length `L` satisfies
`L ≥ MAX_MESSAGE - HEADER_SIZE`, without waiting for payload bytes;
`some true` once `HEADER_SIZE + L` bytes are buffered; else `some false`. -/
theorem c2_boundary_verdict (P : HeaderPolicy) (buf : List Nat) :
    buf_contains_message P buf = verdict_spec P buf := by
  by_cases h : buf.length < HEADER_SIZE
  · unfold buf_contains_message verdict_spec
    rw [if_pos h, if_pos h]
  · rcases hch : Message.check_header P buf with _ | L
    · rw [bcm_of_check_none h hch, verdict_spec_of_check_none h hch]
    · rw [bcm_of_check_some h hch, verdict_spec_of_check_some h hch]
      by_cases hcap : MAX_MESSAGE - HEADER_SIZE ≤ L
      · rw [if_pos hcap, if_pos hcap]
      · rw [if_neg hcap, if_neg hcap]
        by_cases hfull : HEADER_SIZE + L ≤ buf.length
        · rw [if_pos hfull,
            decide_eq_true (show L + HEADER_SIZE ≤ buf.length by omega)]
        · rw [if_neg hfull,
            decide_eq_false (show ¬ L + HEADER_SIZE ≤ buf.length by omega)]

/-- C3 counterexample: the claimed invariant `frames.length ≤ QUEUE_SIZE`
fails on the code — `read` only refuses when the queue is *strictly* above
`QUEUE_SIZE`, and a single ingest can append many records, so one ingest
of 1025 packed minimal records starting from `new` reaches a queue holding
1025 > 1024 entries. -/
theorem c3_queue_bound_cex :
    Reachable P0 (MessageDeframer.read P0 MessageDeframer.new
        (ReadResult.ioOk (joinRecs 1025))).1 ∧
      QUEUE_SIZE < ((MessageDeframer.read P0 MessageDeframer.new
        (ReadResult.ioOk (joinRecs 1025))).1).frames.length := by
  have ha : MessageDeframer.read P0 ⟨[], false, []⟩
      (ReadResult.ioOk (joinRecs 1025)) =
      (process_frames P0 (([] ++ joinRecs 1025).length + 1)
        ⟨[], false, [] ++ joinRecs 1025⟩,
        Except.ok (joinRecs 1025).length) := by
    rw [read_ok_components (by simp) (by rw [joinRecs_length]; decide)]
  have hc : (MessageDeframer.read P0 ⟨[], false, []⟩
      (ReadResult.ioOk (joinRecs 1025))).1 =
      process_frames P0 (([] ++ joinRecs 1025).length + 1)
        ⟨[], false, [] ++ joinRecs 1025⟩ := by
    rw [ha]
  have hst : (MessageDeframer.read P0 MessageDeframer.new
      (ReadResult.ioOk (joinRecs 1025))).1 =
        ⟨List.replicate 1025 m0, false, []⟩ := by
    show (MessageDeframer.read P0 ⟨[], false, []⟩
      (ReadResult.ioOk (joinRecs 1025))).1 = _
    rw [hc, List.nil_append]
    rw [process_joinRecs false 1025 [] ((joinRecs 1025).length + 1)
      (by rw [joinRecs_length]; omega)]
    rw [List.nil_append]
  refine ⟨Relation.ReflTransGen.single
    (Step.read MessageDeframer.new (ReadResult.ioOk (joinRecs 1025))), ?_⟩
  rw [hst]
  show QUEUE_SIZE < (List.replicate 1025 m0).length
  rw [List.length_replicate]
  decide

/-- C3 (amended): the completed-record queue is bounded on all reachable
states, but by `QUEUE_SIZE + MAX_MESSAGE / HEADER_SIZE = 1024 + 3687`
rather than by `QUEUE_SIZE`: a read proceeds whenever the queue is at most
`QUEUE_SIZE` long and can then add up to one record per `HEADER_SIZE`
buffered bytes. -/
theorem c3_queue_bounded (P : HeaderPolicy) (s : MessageDeframer)
    (h : Reachable P s) :
    s.frames.length ≤ QUEUE_SIZE + MAX_MESSAGE / HEADER_SIZE :=
  (reachable_inv h).2.1

theorem c3_queue_bounded_witness :
    Reachable P0 ⟨[], false, [1, 2]⟩ ∧
      (⟨[], false, [1, 2]⟩ : MessageDeframer).frames.length ≤
        QUEUE_SIZE + MAX_MESSAGE / HEADER_SIZE := by
  have hre : Reachable P0 ⟨[], false, [1, 2]⟩ :=
    Relation.ReflTransGen.single
      (Step.read MessageDeframer.new (ReadResult.ioOk [1, 2]))
  exact ⟨hre, c3_queue_bounded P0 _ hre⟩

/-- C4 counterexample: with the queue exactly at `QUEUE_SIZE = 1024`
entries — reachable by one ingest of 1024 packed minimal records — a
further ingest is *not* refused: it reads a byte, returns `Ok 1`, and
mutates the accumulation buffer, because the source's guard is
`frames.len() > QUEUE_SIZE`, not `≥`. -/
theorem c4_backpressure_cex :
    Reachable P0 (MessageDeframer.read P0 MessageDeframer.new
        (ReadResult.ioOk (joinRecs 1024))).1 ∧
      ((MessageDeframer.read P0 MessageDeframer.new
        (ReadResult.ioOk (joinRecs 1024))).1).frames.length = QUEUE_SIZE ∧
      (MessageDeframer.read P0
        ((MessageDeframer.read P0 MessageDeframer.new
          (ReadResult.ioOk (joinRecs 1024))).1)
        (ReadResult.ioOk [22])).2 = Except.ok 1 ∧
      (MessageDeframer.read P0
        ((MessageDeframer.read P0 MessageDeframer.new
          (ReadResult.ioOk (joinRecs 1024))).1)
        (ReadResult.ioOk [22])).1.buf = [22] := by
  have ha : MessageDeframer.read P0 ⟨[], false, []⟩
      (ReadResult.ioOk (joinRecs 1024)) =
      (process_frames P0 (([] ++ joinRecs 1024).length + 1)
        ⟨[], false, [] ++ joinRecs 1024⟩,
        Except.ok (joinRecs 1024).length) := by
    rw [read_ok_components (by simp) (by rw [joinRecs_length]; decide)]
  have hc : (MessageDeframer.read P0 ⟨[], false, []⟩
      (ReadResult.ioOk (joinRecs 1024))).1 =
      process_frames P0 (([] ++ joinRecs 1024).length + 1)
        ⟨[], false, [] ++ joinRecs 1024⟩ := by
    rw [ha]
  have hst : (MessageDeframer.read P0 MessageDeframer.new
      (ReadResult.ioOk (joinRecs 1024))).1 =
        ⟨List.replicate 1024 m0, false, []⟩ := by
    show (MessageDeframer.read P0 ⟨[], false, []⟩
      (ReadResult.ioOk (joinRecs 1024))).1 = _
    rw [hc, List.nil_append]
    rw [process_joinRecs false 1024 [] ((joinRecs 1024).length + 1)
      (by rw [joinRecs_length]; omega)]
    rw [List.nil_append]
  have hq2 : (List.replicate 1024 m0).length ≤ QUEUE_SIZE := by
    rw [List.length_replicate]
    decide
  have hst2 : MessageDeframer.read P0 ⟨List.replicate 1024 m0, false, []⟩
      (ReadResult.ioOk [22]) =
        (⟨List.replicate 1024 m0, false, [22]⟩, Except.ok 1) := by
    rw [read_ok_components hq2 (by decide)]
    rw [process_frames_false (s := ⟨List.replicate 1024 m0, false, [] ++ [22]⟩)
      (bcm_short (by decide)) _]
    rw [List.nil_append]
    rfl
  refine ⟨Relation.ReflTransGen.single
    (Step.read MessageDeframer.new (ReadResult.ioOk (joinRecs 1024))), ?_, ?_, ?_⟩
  · rw [hst]
    show (List.replicate 1024 m0).length = QUEUE_SIZE
    rw [List.length_replicate]
    rfl
  · rw [hst, hst2]
  · rw [hst, hst2]

/-- C4 (amended): only when the completed-record queue is *strictly above*
`QUEUE_SIZE` entries does ingest return `Ok 0` immediately, perform no
read on the byte source, and leave the whole state unchanged. -/
theorem c4_backpressure_strict (P : HeaderPolicy) (s : MessageDeframer)
    (rd : ReadResult) (h : QUEUE_SIZE < s.frames.length) :
    MessageDeframer.read P s rd = (s, Except.ok 0) :=
  read_over_queue rd h

theorem c4_backpressure_strict_witness :
    QUEUE_SIZE <
      (⟨List.replicate 1025 m0, false, []⟩ : MessageDeframer).frames.length ∧
      MessageDeframer.read P0 ⟨List.replicate 1025 m0, false, []⟩
        (ReadResult.ioOk [1]) =
          (⟨List.replicate 1025 m0, false, []⟩, Except.ok 0) := by
  have h : QUEUE_SIZE <
      (⟨List.replicate 1025 m0, false, []⟩ : MessageDeframer).frames.length := by
    show QUEUE_SIZE < (List.replicate 1025 m0).length
    rw [List.length_replicate]
    decide
  exact ⟨h, c4_backpressure_strict P0 _ _ h⟩

/-- C5: if the (post-append) buffer's front holds a header that parses but
declares a payload length `L ≥ MAX_MESSAGE - HEADER_SIZE`, ingest sets the
desynchronisation flag, appends no record for those bytes, and stops
processing — and along every sequence of later operations the flag stays
set and no record is ever extracted (the queue only ever shrinks by pops,
witnessed by the suffix relation). -/
theorem c5_oversized_desyncs (P : HeaderPolicy) (s : MessageDeframer)
    (bytes : List Nat) (L : Nat) (s' : MessageDeframer)
    (hq : s.frames.length ≤ QUEUE_SIZE)
    (hch : Message.check_header P
      (s.buf ++ bytes.take (MAX_MESSAGE - s.buf.length)) = some L)
    (hcap : MAX_MESSAGE - HEADER_SIZE ≤ L)
    (hs : Relation.ReflTransGen (Step P)
      ⟨s.frames, true, s.buf ++ bytes.take (MAX_MESSAGE - s.buf.length)⟩ s') :
    MessageDeframer.read P s (ReadResult.ioOk bytes) =
      (⟨s.frames, true, s.buf ++ bytes.take (MAX_MESSAGE - s.buf.length)⟩,
        Except.ok (bytes.take (MAX_MESSAGE - s.buf.length)).length) ∧
    s'.desynced = true ∧ s'.frames <:+ s.frames := by
  have h5 : ¬ (s.buf ++ bytes.take (MAX_MESSAGE - s.buf.length)).length <
      HEADER_SIZE := by
    have := check_header_some_len hch
    omega
  have hb : buf_contains_message P
      (s.buf ++ bytes.take (MAX_MESSAGE - s.buf.length)) = none := by
    rw [bcm_of_check_some h5 hch, if_pos hcap]
  have hread : MessageDeframer.read P s (ReadResult.ioOk bytes) =
      (⟨s.frames, true, s.buf ++ bytes.take (MAX_MESSAGE - s.buf.length)⟩,
        Except.ok (bytes.take (MAX_MESSAGE - s.buf.length)).length) := by
    rw [read_ok (Nat.not_lt.mpr hq),
      process_frames_none (s := ⟨s.frames, s.desynced,
        s.buf ++ bytes.take (MAX_MESSAGE - s.buf.length)⟩) hb]
  obtain ⟨⟨hd', _⟩, hsuf⟩ := steps_pinned ⟨rfl, hb⟩ hs
  exact ⟨hread, hd', hsuf⟩

theorem c5_oversized_desyncs_witness :
    MessageDeframer.read P0 MessageDeframer.new
        (ReadResult.ioOk [22, 3, 1, 72, 0]) =
      (⟨[], true, [22, 3, 1, 72, 0]⟩, Except.ok 5) ∧
    (⟨[], true, [22, 3, 1, 72, 0]⟩ : MessageDeframer).desynced = true ∧
    (⟨[], true, [22, 3, 1, 72, 0]⟩ : MessageDeframer).frames <:+
      MessageDeframer.new.frames := by
  have h := c5_oversized_desyncs P0 MessageDeframer.new [22, 3, 1, 72, 0]
    18432 ⟨[], true, [22, 3, 1, 72, 0]⟩ (by decide) (by decide) (by decide)
    Relation.ReflTransGen.refl
  exact h

/-- C6: if the single byte-source read performed by ingest fails, ingest
propagates that error and the deframer's state is exactly as before the
call — buffer rolled back, queue and desync flag untouched. -/
theorem c6_error_atomic (P : HeaderPolicy) (s : MessageDeframer) (e : IoError)
    (hq : s.frames.length ≤ QUEUE_SIZE) :
    MessageDeframer.read P s (ReadResult.ioErr e) = (s, Except.error e) :=
  read_err (Nat.not_lt.mpr hq)

theorem c6_error_atomic_witness :
    (⟨[], false, [1, 2]⟩ : MessageDeframer).frames.length ≤ QUEUE_SIZE ∧
      MessageDeframer.read P0 ⟨[], false, [1, 2]⟩ (ReadResult.ioErr 7) =
        (⟨[], false, [1, 2]⟩, Except.error 7) :=
  ⟨by decide, c6_error_atomic P0 ⟨[], false, [1, 2]⟩ 7 (by decide)⟩

/-- C7: the desynchronised state is terminal and extraction-free — from any
reachable state with the flag set, every sequence of further operations
keeps the flag set and never appends a record: the queue evolves only by
popping from the front (it stays a suffix of what was queued). -/
theorem c7_desync_terminal (P : HeaderPolicy) (s s' : MessageDeframer)
    (hre : Reachable P s) (hd : s.desynced = true)
    (hs : Relation.ReflTransGen (Step P) s s') :
    s'.desynced = true ∧ s'.frames <:+ s.frames := by
  have hp : Pinned P s := ⟨hd, (reachable_inv hre).2.2 hd⟩
  obtain ⟨⟨hd', _⟩, hsuf⟩ := steps_pinned hp hs
  exact ⟨hd', hsuf⟩

theorem c7_desync_terminal_witness :
    ((pop_record ⟨[], true, [22, 3, 1, 72, 0]⟩).1).desynced = true ∧
      ((pop_record ⟨[], true, [22, 3, 1, 72, 0]⟩).1).frames <:+
        (⟨[], true, [22, 3, 1, 72, 0]⟩ : MessageDeframer).frames :=
  c7_desync_terminal P0 ⟨[], true, [22, 3, 1, 72, 0]⟩
    (pop_record ⟨[], true, [22, 3, 1, 72, 0]⟩).1
    (Relation.ReflTransGen.single
      (Step.read MessageDeframer.new (ReadResult.ioOk [22, 3, 1, 72, 0])))
    rfl
    (Relation.ReflTransGen.single (Step.pop ⟨[], true, [22, 3, 1, 72, 0]⟩))

/-- C8: incremental/bulk equivalence — feeding a well-formed record's bytes
one byte per ingest call to a fresh deframer ends in exactly the state of
feeding all bytes in one call: exactly one queued record (the same one, by
the state equality), an empty buffer, and no desync. -/
theorem c8_incremental_bulk (P : HeaderPolicy) (w : List Nat)
    (hwf : wellFormedRecord P w) :
    incrFeed P w =
      (MessageDeframer.read P MessageDeframer.new (ReadResult.ioOk w)).1 ∧
    (incrFeed P w).frames.length = 1 ∧
    (incrFeed P w).buf = [] ∧
    (incrFeed P w).desynced = false := by
  obtain ⟨m, hr, hincr⟩ := incrFeed_record hwf
  obtain ⟨m', hr', hbulk⟩ := read_bulk_record hwf
  have hm : m = m' := by
    rw [hr] at hr'
    exact congrArg Prod.fst (Option.some.inj hr')
  subst hm
  refine ⟨?_, ?_, ?_, ?_⟩
  · rw [hincr, hbulk]
  · rw [hincr]
    rfl
  · rw [hincr]
  · rw [hincr]

theorem c8_incremental_bulk_witness :
    wellFormedRecord P0 [22, 3, 1, 0, 2, 10, 20] ∧
      incrFeed P0 [22, 3, 1, 0, 2, 10, 20] =
        (MessageDeframer.read P0 MessageDeframer.new
          (ReadResult.ioOk [22, 3, 1, 0, 2, 10, 20])).1 ∧
      (incrFeed P0 [22, 3, 1, 0, 2, 10, 20]).frames.length = 1 := by
  have hwf : wellFormedRecord P0 [22, 3, 1, 0, 2, 10, 20] :=
    ⟨22, 3, 1, 0, 2, [10, 20], rfl, rfl, rfl, rfl, by decide⟩
  have h := c8_incremental_bulk P0 [22, 3, 1, 0, 2, 10, 20] hwf
  exact ⟨hwf, h.1, h.2.1⟩

/-- C9: under the precondition that boundary detection returned "complete",
record extraction cannot fail — the parser succeeds, consumes exactly
`HEADER_SIZE + L` bytes off the front of the buffer, pushes exactly one
record onto the back of the queue, and leaves the rest of the buffer
intact. -/
theorem c9_extraction_safe (P : HeaderPolicy) (s : MessageDeframer) (L : Nat)
    (hv : buf_contains_message P s.buf = some true)
    (hch : Message.check_header P s.buf = some L) :
    (Message.read P s.buf).isSome = true ∧
    (Message.read P s.buf).map Prod.snd = some (HEADER_SIZE + L) ∧
    deframe_one P s =
      ⟨s.frames ++ ((Message.read P s.buf).map Prod.fst).toList,
        s.desynced, s.buf.drop (HEADER_SIZE + L)⟩ ∧
    (deframe_one P s).frames.length = s.frames.length + 1 := by
  obtain ⟨L', hch', hcap, hfull⟩ := bcm_true_elim hv
  rw [hch] at hch'
  have hLL : L = L' := Option.some.inj hch'
  subst hLL
  obtain ⟨m, hm⟩ := read_of_complete hch hfull
  refine ⟨by rw [hm]; rfl, by rw [hm]; rfl, ?_, ?_⟩
  · rw [deframe_one_eq hm, hm]
    rfl
  · rw [deframe_one_eq hm]
    simp

theorem c9_extraction_safe_witness :
    buf_contains_message P0 [22, 3, 1, 0, 1, 5, 9] = some true ∧
      deframe_one P0 ⟨[], false, [22, 3, 1, 0, 1, 5, 9]⟩ =
        ⟨[⟨22, 769, [5]⟩], false, [9]⟩ := by
  have h := c9_extraction_safe P0 ⟨[], false, [22, 3, 1, 0, 1, 5, 9]⟩ 1
    (by decide) (by decide)
  refine ⟨by decide, ?_⟩
  rw [h.2.2.1]
  decide

/-- C10: the desynchronisation flag does not gate I/O — in any reachable
desynchronised state whose queue is within the backpressure bound, ingest
still performs the read and appends the received bytes (clipped to the
room up to `MAX_MESSAGE`) to the buffer, returning their count; it never
becomes a no-op merely because the deframer is desynchronised. -/
theorem c10_desync_still_reads (P : HeaderPolicy) (s : MessageDeframer)
    (bytes : List Nat) (hre : Reachable P s) (hd : s.desynced = true)
    (hq : s.frames.length ≤ QUEUE_SIZE) :
    MessageDeframer.read P s (ReadResult.ioOk bytes) =
      (⟨s.frames, true, s.buf ++ bytes.take (MAX_MESSAGE - s.buf.length)⟩,
        Except.ok (bytes.take (MAX_MESSAGE - s.buf.length)).length) := by
  have hv : buf_contains_message P s.buf = none := (reachable_inv hre).2.2 hd
  have hb : buf_contains_message P
      (s.buf ++ bytes.take (MAX_MESSAGE - s.buf.length)) = none :=
    bcm_none_append hv _
  rw [read_ok (Nat.not_lt.mpr hq),
    process_frames_none (s := ⟨s.frames, s.desynced,
      s.buf ++ bytes.take (MAX_MESSAGE - s.buf.length)⟩) hb]

theorem c10_desync_still_reads_witness :
    MessageDeframer.read P0 ⟨[], true, [22, 3, 1, 72, 0]⟩
        (ReadResult.ioOk [9]) =
      (⟨[], true, [22, 3, 1, 72, 0, 9]⟩, Except.ok 1) := by
  have h := c10_desync_still_reads P0 ⟨[], true, [22, 3, 1, 72, 0]⟩ [9]
    (Relation.ReflTransGen.single
      (Step.read MessageDeframer.new (ReadResult.ioOk [22, 3, 1, 72, 0])))
    rfl (by decide)
  rw [h]
  rfl

end Deframer
